import Mathlib

/-!
Verification of the OLAPScript core (expression evaluator `src/expr.js` and
aggregate library `src/aggr.js`) against its natural-language specification.

The JavaScript sources are shallowly embedded:

* JS values flowing through expression evaluation become the inductive
  `Value` (null, undefined, number, string, boolean, array); numbers are
  modelled as exact rationals (no claim under verification concerns
  floating-point rounding or NaN), and Date values are omitted since no
  claim mentions them.
* A JS array of values becomes a `List Value`; the JS out-of-bounds read
  `a[i]` (which yields `undefined`) becomes `jsIndex`, and the JS write
  `a[i] = v` (which extends the array with holes when `i ≥ a.length`)
  becomes `jsArraySet`.
* Thrown exceptions become `Except`: `RefExpr.evaluate`'s
  `throw new ReferenceError("Unknown column: " + name)` becomes
  `Except.error (.unknownColumn name)`.
* Aggregate classes become per-aggregate `init` / `update` / `finalizeS`
  functions on explicit state values; `finalizeS` returns the pair
  (result, post-state) so that the absence of state mutation in the source
  `finalize` bodies is a provable statement rather than a modelling
  assumption.  `run` folds `update` over a finite update sequence starting
  from `init`, mirroring one initialize → update* → finalize lifecycle.
  Nullable inputs become `Option` values; the aggregates that are generic
  in JS stay generic here.
-/

namespace Olap

/-- A JS value as it flows through the evaluator: null, undefined, number
(exact rational), string, boolean, or array of values. -/
inductive Value where
  | null : Value
  | undefined : Value
  | num : ℚ → Value
  | str : String → Value
  | bool : Bool → Value
  | arr : List Value → Value

/-- Embeds `Column` as used by `expr.js`: a `datatype` tag (`undefined`
is `none`) and the `data` array of values. -/
structure Column where
  datatype : Option String
  data : List Value

/-- A namespace maps column names to columns (a JS object, embedded as an
association list with the object's unique keys). -/
abbrev Namespace := List (String × Column)

/-- Embeds the effective-row-count computation appearing in both
`FuncExpr.prototype.evaluate` and `ConstExpr.prototype.evaluate`:
`Object.keys(namespace).reduce((count, name) => Math.max(count, namespace[name].data.length), 0)`. -/
def effCount (ns : Namespace) : Nat :=
  ns.foldl (fun c p => max c p.2.data.length) 0

/-- Embeds JS `typeof` restricted to the `Value` variants
(`typeof null` is `"object"`, as is the type of an array). -/
def jsTypeof : Value → String
  | .null => "object"
  | .undefined => "undefined"
  | .num _ => "number"
  | .str _ => "string"
  | .bool _ => "boolean"
  | .arr _ => "object"

/-- Embeds the JS array read `data[i]`, which yields `undefined` when `i`
is out of bounds. -/
def jsIndex (data : List Value) (i : Nat) : Value :=
  data.getD i .undefined

/-- Embeds the JS array write `data[i] = v`: in bounds it replaces the
entry; out of bounds it extends the array with holes (read back as
`undefined`) up to index `i`. -/
def jsArraySet (data : List Value) (i : Nat) (v : Value) : List Value :=
  if i < data.length then data.set i v
  else data ++ List.replicate (i - data.length) .undefined ++ [v]

/-- The error raised by `RefExpr.evaluate`:
`new ReferenceError("Unknown column: " + this.reference)`, carrying the
missing name. -/
inductive EvalError where
  | unknownColumn : String → EvalError
deriving DecidableEq

/-- The expression-tree node variants of `expr.js`: `ConstExpr` (a stored
constant), `RefExpr` (a column name), and `FuncExpr` (a function together
with its ordered argument subtrees). -/
inductive Expr where
  | const : Value → Expr
  | ref : String → Expr
  | func : (List Value → Value) → List Expr → Expr

mutual

/-- Embeds the three `evaluate(namespace, selection)` methods of `expr.js`:
* `ConstExpr`: a new `Column(this.datatype, Array(count).fill(this.constant))`
  where `count` is the effective row count;
* `RefExpr`: look the name up in the namespace and return that very column,
  throwing `Unknown column` when absent (a present column object is always
  truthy, so JS `if (!result)` fires exactly on absence);
* `FuncExpr`: evaluate the arguments left to right, then fold over the
  selection, writing `func(inputs.map(column => column.data[selid]))` at
  each selected index into an output array initialised to `count` nulls,
  and wrap the result in a `Column(undefined, data)`. -/
def Expr.eval : Expr → Namespace → List Nat → Except EvalError Column
  | .const c, ns, _ => .ok ⟨some (jsTypeof c), List.replicate (effCount ns) c⟩
  | .ref x, ns, _ =>
    match ns.lookup x with
    | some col => .ok col
    | none => .error (.unknownColumn x)
  | .func f args, ns, sel => do
    let inputs ← Expr.evalList args ns sel
    .ok ⟨none, sel.foldl
      (fun d i => jsArraySet d i (f (inputs.map (fun c => jsIndex c.data i))))
      (List.replicate (effCount ns) .null)⟩

/-- Embeds `this.args.map(arg => arg.evaluate(namespace, selection))`:
left-to-right evaluation of the argument subtrees, propagating the first
thrown error. -/
def Expr.evalList : List Expr → Namespace → List Nat → Except EvalError (List Column)
  | [], _, _ => .ok []
  | a :: rest, ns, sel => do
    let c ← Expr.eval a ns sel
    let cs ← Expr.evalList rest ns sel
    .ok (c :: cs)

end

/-- Whether a value is exactly JS `null` (the SameValueZero test performed
by `args.includes(null)`). -/
def Value.isNull : Value → Bool
  | .null => true
  | _ => false

/-- Whether a value is JS-loosely equal to `null` (`b == null` is true for
`null` and `undefined` only). -/
def jsNullish : Value → Bool
  | .null => true
  | .undefined => true
  | _ => false

/-- JS truthiness of a `Value` (`0`, `""`, `null`, `undefined` and `false`
are falsy; arrays are truthy; NaN does not arise with exact rationals). -/
def jsTruthy : Value → Bool
  | .null => false
  | .undefined => false
  | .num q => decide (q ≠ 0)
  | .str s => decide (s ≠ "")
  | .bool b => b
  | .arr _ => true

/-- Embeds `Expr.and`: null if any argument is (SameValueZero-) equal to
null, otherwise `args.reduce((result, arg) => (result && arg), true)`,
where JS `a && b` returns `a` when `a` is falsy and `b` otherwise. -/
def Expr.and (args : List Value) : Value :=
  if args.any (·.isNull) then .null
  else args.foldl (fun r a => if jsTruthy r then a else r) (.bool true)

/-- Embeds `Expr.or`: null if any argument is null, otherwise
`args.reduce((result, arg) => (result || arg), false)`, where JS `a || b`
returns `a` when `a` is truthy and `b` otherwise. -/
def Expr.or (args : List Value) : Value :=
  if args.any (·.isNull) then .null
  else args.foldl (fun r a => if jsTruthy r then r else a) (.bool false)

/-- Embeds `Expr.not`: `(b == null) ? null : !b`. -/
def Expr.not (b : Value) : Value :=
  if jsNullish b then .null else .bool (!jsTruthy b)

/-- Injects a nullable boolean into `Value` (used to state claims about
the three-valued logic over boolean-or-null argument lists). -/
def liftBool : Option Bool → Value
  | none => .null
  | some b => .bool b

/-- `CountStar` state after `initialize`: `{count: 0}`. -/
def CountStar.init : Nat := 0

/-- `CountStar.update`: `++state.count`, unconditionally (no argument). -/
def CountStar.update (state : Nat) : Nat := state + 1

/-- `CountStar.finalize`: `return state.count` — the body only reads the
state, so the post-state is the input state. -/
def CountStar.finalizeS (state : Nat) : Nat × Nat := (state, state)

/-- A `CountStar` state reached by `n` update calls. -/
def CountStar.run : Nat → Nat
  | 0 => CountStar.init
  | n + 1 => CountStar.update (CountStar.run n)

/-- `Count` state after `initialize`: `{count: 0}`. -/
def Count.init : Nat := 0

/-- `Count.update`: `state.count += (val !== null)` (the boolean coerces
to 0 or 1). -/
def Count.update {α : Type} (state : Nat) (val : Option α) : Nat :=
  state + (if val.isSome then 1 else 0)

/-- `Count.finalize`: `return state.count`, reading only. -/
def Count.finalizeS (state : Nat) : Nat × Nat := (state, state)

/-- A `Count` state reached from `initialize` by the given update values. -/
def Count.run {α : Type} (vals : List (Option α)) : Nat :=
  vals.foldl Count.update Count.init

/-- `Sum` state after `initialize`: `{sum: null}`. -/
def Sum.init : Option ℚ := none

/-- `Sum.update`: if the value is not null, start the sum at the value when
the running sum is still null, else add the value to it. -/
def Sum.update (state : Option ℚ) (val : Option ℚ) : Option ℚ :=
  match val with
  | none => state
  | some v =>
    match state with
    | none => some v
    | some s => some (s + v)

/-- `Sum.finalize`: `return state.sum`, reading only. -/
def Sum.finalizeS (state : Option ℚ) : Option ℚ × Option ℚ := (state, state)

/-- A `Sum` state reached from `initialize` by the given update values. -/
def Sum.run (vals : List (Option ℚ)) : Option ℚ :=
  vals.foldl Sum.update Sum.init

/-- `Avg` accumulator state: the inherited `sum` plus a `count`. -/
structure AvgState where
  sum : Option ℚ
  count : Nat

/-- `Avg` state after `initialize`: `{sum: null, count: 0}`. -/
def Avg.init : AvgState := ⟨Sum.init, 0⟩

/-- `Avg.update`: `super.update(state, val)` (Sum's rule on `sum`), then
`state.count += (val !== null)`. -/
def Avg.update (st : AvgState) (val : Option ℚ) : AvgState :=
  ⟨Sum.update st.sum val, st.count + (if val.isSome then 1 else 0)⟩

/-- `Avg.finalize`: `if (state.count) return super.finalize(state) / state.count
else return null`.  `if (state.count)` is JS truthiness of the
non-negative integer `count`, i.e. `count ≠ 0`; `Option.getD 0` reflects
that JS `null / n` coerces null to 0 (that branch is unreachable from a
real update sequence, where `count > 0` forces a non-null sum).  The body
only reads the state, so the post-state is the input state. -/
def Avg.finalizeS (st : AvgState) : Option ℚ × AvgState :=
  (if st.count ≠ 0 then some (st.sum.getD 0 / (st.count : ℚ)) else none, st)

/-- The result component of `Avg.finalizeS`. -/
def Avg.finalize (st : AvgState) : Option ℚ := (Avg.finalizeS st).1

/-- An `Avg` state reached from `initialize` by the given update values. -/
def Avg.run (vals : List (Option ℚ)) : AvgState :=
  vals.foldl Avg.update Avg.init

/-- `ValueAggr` state after `initialize`: `{value: null}`. -/
def ValueAggr.init {α : Type} : Option α := none

/-- `ValueAggr.update`: if the incoming value is not null, keep it when the
tracked value is still null, else replace the tracked value by
`selector(tracked, incoming)`. -/
def ValueAggr.update {α : Type} (selector : α → α → α)
    (state : Option α) (val : Option α) : Option α :=
  match val with
  | none => state
  | some v =>
    match state with
    | none => some v
    | some s => some (selector s v)

/-- `ValueAggr.finalize`: `return state.value`, reading only. -/
def ValueAggr.finalizeS {α : Type} (state : Option α) : Option α × Option α :=
  (state, state)

/-- A `ValueAggr` state reached from `initialize` by the given update
values. -/
def ValueAggr.run {α : Type} (selector : α → α → α)
    (vals : List (Option α)) : Option α :=
  vals.foldl (ValueAggr.update selector) ValueAggr.init

/-- `Min`'s selector: `(a, b) => ((a < b) ? a : b)`, over numbers. -/
def Min.selector (a b : ℚ) : ℚ := if a < b then a else b

/-- A `Min` state reached from `initialize` by the given update values. -/
def Min.run (vals : List (Option ℚ)) : Option ℚ :=
  ValueAggr.run Min.selector vals

/-- `Max`'s selector: `(a, b) => ((a > b) ? a : b)`, over numbers. -/
def Max.selector (a b : ℚ) : ℚ := if a > b then a else b

/-- A `Max` state reached from `initialize` by the given update values. -/
def Max.run (vals : List (Option ℚ)) : Option ℚ :=
  ValueAggr.run Max.selector vals

/-- `First`'s selector: `(a, b) => a`. -/
def First.selector {α : Type} (a _b : α) : α := a

/-- A `First` state reached from `initialize` by the given update values. -/
def First.run {α : Type} (vals : List (Option α)) : Option α :=
  ValueAggr.run First.selector vals

/-- `Last`'s selector: `(a, b) => b`. -/
def Last.selector {α : Type} (_a b : α) : α := b

/-- A `Last` state reached from `initialize` by the given update values. -/
def Last.run {α : Type} (vals : List (Option α)) : Option α :=
  ValueAggr.run Last.selector vals

/-- Embeds `StringAgg`'s separator extraction, restricted to a second
constructor argument that is absent or a string constant:
`const arg2 = args[1] || {constant: ','}; const sep = arg2.constant || ','`.
An absent second argument is JS-falsy, and so is the empty-string
constant — in both cases `||` replaces the separator by `","`. -/
def StringAgg.sepOf : Option String → String
  | none => ","
  | some s => if s = "" then "," else s

/-- `StringAgg`'s selector: `(a, b) => (a + sep + b)`. -/
def StringAgg.selector (sep : String) (a b : String) : String := a ++ sep ++ b

/-- A `StringAgg` state (with the given second constructor argument)
reached from `initialize` by the given update values. -/
def StringAgg.run (arg2 : Option String) (vals : List (Option String)) : Option String :=
  ValueAggr.run (StringAgg.selector (StringAgg.sepOf arg2)) vals

/-- `ArrayAgg` state after `initialize`: `{value: null}`. -/
def ArrayAgg.init {α : Type} : Option (List (Option α)) := none

/-- `ArrayAgg.update`: lazily allocate `[]` on the first call, then push
every value, nulls included. -/
def ArrayAgg.update {α : Type} (state : Option (List (Option α)))
    (val : Option α) : Option (List (Option α)) :=
  some (state.getD [] ++ [val])

/-- `ArrayAgg.finalize`: `return state.value`, reading only. -/
def ArrayAgg.finalizeS {α : Type} (state : Option (List (Option α))) :
    Option (List (Option α)) × Option (List (Option α)) :=
  (state, state)

/-- An `ArrayAgg` state reached from `initialize` by the given update
values. -/
def ArrayAgg.run {α : Type} (vals : List (Option α)) : Option (List (Option α)) :=
  vals.foldl ArrayAgg.update ArrayAgg.init

/-- Modelled from the spec: "non-null values joined by `sep` in update
order, or null if none seen" — the refinement target `StringAgg` is
compared against. -/
def specJoin (sep : String) : List String → Option String
  | [] => none
  | x :: xs => some (xs.foldl (fun a b => a ++ sep ++ b) x)

/-- A successful lookup pairs the name with a column of the namespace. -/
theorem lookup_mem {ns : Namespace} {x : String} {col : Column}
    (h : ns.lookup x = some col) : (x, col) ∈ ns := by
  induction ns with
  | nil => simp [List.lookup] at h
  | cons p rest ih =>
    obtain ⟨k, v⟩ := p
    rw [List.lookup] at h
    by_cases hx : x == k
    · simp only [hx] at h
      obtain rfl : v = col := by simpa using h
      have hxk : x = k := eq_of_beq hx
      subst hxk
      exact List.mem_cons_self _ _
    · simp only [Bool.not_eq_true] at hx
      simp only [hx] at h
      exact List.mem_cons_of_mem _ (ih h)

/-- C2: `RefExpr(x).evaluate(N, S)` throws `UnknownColumn` (carrying the
missing name) exactly when `x` is not a key of `N`, and otherwise returns
exactly the column `N[x]` (the very value stored in the namespace, no
copy). -/
theorem refExpr_eval_spec (ns : Namespace) (sel : List Nat) (x : String) :
    Expr.eval (.ref x) ns sel
        = (ns.lookup x).elim (Except.error (.unknownColumn x)) Except.ok ∧
      (Expr.eval (.ref x) ns sel).isOk = (ns.lookup x).isSome := by
  cases h : ns.lookup x <;> simp [Expr.eval, h, Except.isOk, Except.toBool]

/-- C5: `ConstExpr(c).evaluate(N, S)` returns a column whose length is the
maximum data length over the columns of `N` and whose every entry is `c`,
and the result does not depend on the selection at all. -/
theorem constExpr_eval_spec (ns : Namespace) (sel sel' : List Nat) (c : Value) :
    ∃ col, Expr.eval (.const c) ns sel = .ok col ∧
      col.data.length = effCount ns ∧
      (∀ v ∈ col.data, v = c) ∧
      Expr.eval (.const c) ns sel = Expr.eval (.const c) ns sel' := by
  refine ⟨⟨some (jsTypeof c), List.replicate (effCount ns) c⟩, rfl, by simp, ?_, rfl⟩
  intro v hv
  exact List.eq_of_mem_replicate hv

/-- Binding a successful evaluation result just continues. -/
theorem bindOk {α β : Type} (a : α) (k : α → Except EvalError β) :
    (Except.ok a >>= k) = k a := rfl

/-- Binding a thrown error propagates the error. -/
theorem bindError {α β : Type} (e : EvalError) (k : α → Except EvalError β) :
    ((Except.error e : Except EvalError α) >>= k) = .error e := rfl

/-- In bounds, `jsArraySet` is plain `List.set`. -/
theorem jsArraySet_of_lt {data : List Value} {i : Nat} (v : Value)
    (h : i < data.length) : jsArraySet data i v = data.set i v := by
  simp [jsArraySet, h]

/-- Folding in-bounds writes over a selection keeps the array length. -/
theorem foldl_jsArraySet_length (g : Nat → Value) (sel : List Nat) (d0 : List Value)
    (h : ∀ i ∈ sel, i < d0.length) :
    (sel.foldl (fun d i => jsArraySet d i (g i)) d0).length = d0.length := by
  induction sel generalizing d0 with
  | nil => rfl
  | cons i rest ih =>
    rw [List.foldl_cons, jsArraySet_of_lt _ (h i (List.mem_cons_self i rest))]
    have h' : ∀ k ∈ rest, k < (d0.set i (g i)).length := by
      intro k hk
      rw [List.length_set]
      exact h k (List.mem_cons_of_mem _ hk)
    rw [ih _ h', List.length_set]

/-- Folding in-bounds writes of a per-index value `g i` over a selection:
selected entries read back `g`, other entries keep their old value. -/
theorem foldl_jsArraySet_getD (g : Nat → Value) (sel : List Nat) (d0 : List Value)
    (h : ∀ i ∈ sel, i < d0.length) (j : Nat) :
    (sel.foldl (fun d i => jsArraySet d i (g i)) d0).getD j .undefined
      = if j ∈ sel then g j else d0.getD j .undefined := by
  induction sel generalizing d0 with
  | nil => simp
  | cons i rest ih =>
    rw [List.foldl_cons, jsArraySet_of_lt _ (h i (List.mem_cons_self i rest))]
    have h' : ∀ k ∈ rest, k < (d0.set i (g i)).length := by
      intro k hk
      rw [List.length_set]
      exact h k (List.mem_cons_of_mem _ hk)
    rw [ih _ h']
    by_cases hjr : j ∈ rest
    · simp [hjr]
    · by_cases hji : j = i
      · subst hji
        have hlen : j < d0.length := h j (List.mem_cons_self _ _)
        simp [hjr, List.getD_eq_getElem?_getD, List.getElem?_set_self hlen]
      · have hset : (d0.set i (g i))[j]? = d0[j]? :=
          List.getElem?_set_ne (Ne.symm hji)
        simp [hjr, hji, List.getD_eq_getElem?_getD, hset]

/-- C1: `FuncExpr(f, args).evaluate(N, S)` (given that the arguments
evaluate to the columns `inputs`, and with `S` in bounds per the data
model) returns a column of length equal to the effective row count of `N`;
at every index in `S` the entry is `f` applied to the values read from the
argument columns at that index, and at every other index the entry is
null. -/
theorem funcExpr_eval_spec (f : List Value → Value) (args : List Expr)
    (ns : Namespace) (sel : List Nat) (inputs : List Column)
    (hargs : Expr.evalList args ns sel = .ok inputs)
    (hsel : ∀ i ∈ sel, i < effCount ns) :
    ∃ col, Expr.eval (.func f args) ns sel = .ok col ∧
      col.data.length = effCount ns ∧
      (∀ i ∈ sel, col.data.getD i .undefined
        = f (inputs.map (fun c => jsIndex c.data i))) ∧
      (∀ i, i < effCount ns → i ∉ sel → col.data.getD i .undefined = .null) := by
  have hlen : ∀ i ∈ sel, i < (List.replicate (effCount ns) Value.null).length := by
    simpa using hsel
  refine ⟨⟨none, sel.foldl
      (fun d i => jsArraySet d i (f (inputs.map (fun c => jsIndex c.data i))))
      (List.replicate (effCount ns) .null)⟩, ?_, ?_, ?_, ?_⟩
  · simp [Expr.eval, hargs, bindOk]
  · have := foldl_jsArraySet_length
      (fun i => f (inputs.map (fun c => jsIndex c.data i))) sel _ hlen
    simpa using this
  · intro i hi
    have := foldl_jsArraySet_getD
      (fun i => f (inputs.map (fun c => jsIndex c.data i))) sel _ hlen i
    rw [if_pos hi] at this
    exact this
  · intro i hic hins
    have := foldl_jsArraySet_getD
      (fun i => f (inputs.map (fun c => jsIndex c.data i))) sel _ hlen i
    rw [if_neg hins] at this
    rw [this, List.getD_eq_getElem?_getD, List.getElem?_replicate, if_pos hic]
    rfl

/-- Witness for C1 at a concrete input: one column of length 2, selection
`[0, 1]`, the head function applied to a single reference argument. -/
theorem funcExpr_eval_spec_witness :
    ∃ col, Expr.eval (.func (fun vs => vs.headD .null) [.ref "a"])
        [("a", ⟨none, [.num 1, .num 2]⟩)] [0, 1] = .ok col ∧
      col.data.length = effCount [("a", ⟨none, [.num 1, .num 2]⟩)] ∧
      (∀ i ∈ [0, 1], col.data.getD i .undefined
        = (fun vs => vs.headD .null)
            ([Column.mk none [.num 1, .num 2]].map (fun c => jsIndex c.data i))) ∧
      (∀ i, i < effCount [("a", ⟨none, [.num 1, .num 2]⟩)] → i ∉ [0, 1] →
        col.data.getD i .undefined = .null) :=
  funcExpr_eval_spec (fun vs => vs.headD .null) [.ref "a"]
    [("a", ⟨none, [.num 1, .num 2]⟩)] [0, 1] [⟨none, [.num 1, .num 2]⟩]
    rfl (by decide)

/-- C10: when every column of the namespace has length equal to the
effective row count `C` and every selected index is below `C`, every
column produced by evaluating any expression tree — including each
argument column a `FuncExpr` node reads from, since those are themselves
evaluation results — again has length `C`, and reading any selected index
from such a column is in bounds (the out-of-bounds read that would yield a
missing value cannot happen). -/
theorem eval_inbounds_safety (ns : Namespace) (sel : List Nat)
    (hns : ∀ p ∈ ns, p.2.data.length = effCount ns)
    (hsel : ∀ i ∈ sel, i < effCount ns) :
    ∀ (e : Expr) (col : Column), Expr.eval e ns sel = .ok col →
      col.data.length = effCount ns ∧ ∀ i ∈ sel, (col.data[i]?).isSome := by
  intro e col h
  have hlen : col.data.length = effCount ns := by
    cases e with
    | const c =>
      simp only [Expr.eval, Except.ok.injEq] at h
      subst h
      simp
    | ref x =>
      cases hl : ns.lookup x with
      | none => simp [Expr.eval, hl] at h
      | some c2 =>
        simp only [Expr.eval, hl, Except.ok.injEq] at h
        subst h
        exact hns (x, c2) (lookup_mem hl)
    | func f args =>
      cases hl : Expr.evalList args ns sel with
      | error err => simp [Expr.eval, hl, bindError] at h
      | ok inputs =>
        simp only [Expr.eval, hl, bindOk, Except.ok.injEq] at h
        subst h
        have hl' : ∀ i ∈ sel, i < (List.replicate (effCount ns) Value.null).length := by
          simpa using hsel
        have := foldl_jsArraySet_length
          (fun i => f (inputs.map (fun c => jsIndex c.data i))) sel _ hl'
        simpa using this
  refine ⟨hlen, ?_⟩
  intro i hi
  rw [List.getElem?_eq_getElem (by rw [hlen]; exact hsel i hi)]
  rfl

/-- Witness for C10 at a concrete input: two aligned columns of length 2,
selection `[1, 0]`, a function call reading one of the columns. -/
theorem eval_inbounds_safety_witness :
    (Column.mk none [.str "x", .null]).data.length
        = effCount [("a", ⟨none, [.num 1, .num 2]⟩), ("b", ⟨none, [.str "x", .null]⟩)] ∧
      ∀ i ∈ [1, 0], ((Column.mk none [.str "x", .null]).data[i]?).isSome :=
  eval_inbounds_safety
    [("a", ⟨none, [.num 1, .num 2]⟩), ("b", ⟨none, [.str "x", .null]⟩)] [1, 0]
    (by decide) (by decide)
    (.func (fun vs => vs.headD .null) [.ref "b"]) (Column.mk none [.str "x", .null])
    rfl

/-- Folding Sum's update from a non-null running sum adds every non-null
value of the sequence. -/
theorem sum_foldl_some (vals : List (Option ℚ)) :
    ∀ s : ℚ, vals.foldl Sum.update (some s) = some (s + (vals.filterMap id).sum) := by
  induction vals with
  | nil => intro s; simp
  | cons v rest ih =>
    intro s
    cases v with
    | none => simpa using ih s
    | some a => simpa [Sum.update, add_assoc] using ih (s + a)

/-- The running sum after a full update sequence: null when no non-null
value was seen, otherwise the sum of the non-null values. -/
theorem sum_run_eq (vals : List (Option ℚ)) :
    Sum.run vals
      = if vals.filterMap id = [] then none else some (vals.filterMap id).sum := by
  induction vals with
  | nil => rfl
  | cons v rest ih =>
    cases v with
    | none => simpa using ih
    | some a =>
      have h1 : Sum.run (some a :: rest) = some (a + (rest.filterMap id).sum) := by
        rw [Sum.run, List.foldl_cons]
        exact sum_foldl_some rest a
      rw [h1]
      simp

/-- The `sum` component of an `Avg` state evolves exactly as `Sum`'s
state (Avg's update starts with `super.update`). -/
theorem avg_foldl_sum (vals : List (Option ℚ)) :
    ∀ st : AvgState, (vals.foldl Avg.update st).sum = vals.foldl Sum.update st.sum := by
  induction vals with
  | nil => intro st; rfl
  | cons v rest ih =>
    intro st
    rw [List.foldl_cons, List.foldl_cons, ih]
    rfl

/-- The `count` component of an `Avg` state counts the non-null values. -/
theorem avg_foldl_count (vals : List (Option ℚ)) :
    ∀ st : AvgState,
      (vals.foldl Avg.update st).count = st.count + (vals.filterMap id).length := by
  induction vals with
  | nil => intro st; simp
  | cons v rest ih =>
    intro st
    rw [List.foldl_cons, ih]
    cases v with
    | none => simp [Avg.update]
    | some a => simp [Avg.update]; omega

/-- C4: `Avg`'s finalize after any update sequence divides the sum of the
non-null values by their count when at least one was seen, and is null
otherwise, never dividing by zero; over `[2, null, 4]` it is 3. -/
theorem avg_spec (vals : List (Option ℚ)) :
    (Avg.finalize (Avg.run vals)
      = if vals.filterMap id = [] then none
        else some ((vals.filterMap id).sum / ((vals.filterMap id).length : ℚ))) ∧
    Avg.finalize (Avg.run [some 2, none, some 4]) = some 3 := by
  constructor
  · have hc : (Avg.run vals).count = (vals.filterMap id).length := by
      simpa [Avg.run, Avg.init] using avg_foldl_count vals Avg.init
    have hs : (Avg.run vals).sum = Sum.run vals := by
      simpa [Avg.run, Sum.run, Avg.init, Sum.init] using avg_foldl_sum vals Avg.init
    rw [Avg.finalize, Avg.finalizeS, hc, hs, sum_run_eq]
    by_cases hnil : vals.filterMap id = []
    · simp [hnil]
    · have hlen : (vals.filterMap id).length ≠ 0 := by simpa using hnil
      simp [hnil, hlen]
  · have h1 : Avg.run [some 2, none, some 4] = ⟨some 6, 2⟩ := by
      show Avg.run [some 2, none, some 4] = ⟨some 6, 2⟩
      rw [Avg.run]
      norm_num [Avg.update, Avg.init, Sum.update, Sum.init]
    rw [h1, Avg.finalize, Avg.finalizeS]
    norm_num

/-- Folding a ValueAggr update from a non-null tracked value left-folds the
selector over the non-null values of the sequence. -/
theorem valueAggr_foldl_some {α : Type} (sl : α → α → α) (vals : List (Option α)) :
    ∀ a : α, vals.foldl (ValueAggr.update sl) (some a)
      = some ((vals.filterMap id).foldl sl a) := by
  induction vals with
  | nil => intro a; simp
  | cons v rest ih =>
    intro a
    cases v with
    | none => simpa using ih a
    | some b => simpa [ValueAggr.update] using ih (sl a b)

/-- `Min`'s ternary selector agrees with `min` on rationals. -/
theorem min_selector_eq (a b : ℚ) : Min.selector a b = min a b := by
  rcases lt_trichotomy a b with h | h | h
  · simp [Min.selector, min_def, h, le_of_lt h]
  · subst h; simp [Min.selector, min_def]
  · simp [Min.selector, min_def, not_lt.mpr (le_of_lt h), not_le.mpr h]

/-- `Max`'s ternary selector agrees with `max` on rationals. -/
theorem max_selector_eq (a b : ℚ) : Max.selector a b = max a b := by
  rcases lt_trichotomy a b with h | h | h
  · simp [Max.selector, max_def, h, le_of_lt h, not_lt.mpr (le_of_lt h)]
  · subst h; simp [Max.selector, max_def]
  · simp [Max.selector, max_def, h, not_le.mpr h, le_of_lt h]

/-- A `Min` run computes the minimum of the non-null values. -/
theorem min_run_eq (vals : List (Option ℚ)) :
    Min.run vals = (vals.filterMap id).min? := by
  have hfun : Min.selector = fun a b => min a b := by
    funext a b; exact min_selector_eq a b
  induction vals with
  | nil => rfl
  | cons v rest ih =>
    cases v with
    | none => simpa using ih
    | some a =>
      have h1 : Min.run (some a :: rest)
          = some ((rest.filterMap id).foldl Min.selector a) := by
        rw [Min.run, ValueAggr.run, List.foldl_cons]
        exact valueAggr_foldl_some Min.selector rest a
      rw [h1, hfun]
      rfl

/-- A `Max` run computes the maximum of the non-null values. -/
theorem max_run_eq (vals : List (Option ℚ)) :
    Max.run vals = (vals.filterMap id).max? := by
  have hfun : Max.selector = fun a b => max a b := by
    funext a b; exact max_selector_eq a b
  induction vals with
  | nil => rfl
  | cons v rest ih =>
    cases v with
    | none => simpa using ih
    | some a =>
      have h1 : Max.run (some a :: rest)
          = some ((rest.filterMap id).foldl Max.selector a) := by
        rw [Max.run, ValueAggr.run, List.foldl_cons]
        exact valueAggr_foldl_some Max.selector rest a
      rw [h1, hfun]
      rfl

/-- Folding `First`'s selector keeps the initial value. -/
theorem foldl_first {α : Type} (l : List α) : ∀ a : α, l.foldl First.selector a = a := by
  induction l with
  | nil => intro a; rfl
  | cons b rest ih => intro a; simpa [First.selector] using ih a

/-- A `First` run keeps the first non-null value. -/
theorem first_run_eq {α : Type} (vals : List (Option α)) :
    First.run vals = (vals.filterMap id).head? := by
  induction vals with
  | nil => rfl
  | cons v rest ih =>
    cases v with
    | none => simpa using ih
    | some a =>
      have h1 : First.run (some a :: rest)
          = some ((rest.filterMap id).foldl First.selector a) := by
        rw [First.run, ValueAggr.run, List.foldl_cons]
        exact valueAggr_foldl_some First.selector rest a
      rw [h1, foldl_first]
      simp

/-- Folding `Last`'s selector keeps the last value, or the initial value
for an empty sequence. -/
theorem foldl_last {α : Type} (l : List α) :
    ∀ a : α, l.foldl Last.selector a = l.getLast?.getD a := by
  induction l with
  | nil => intro a; rfl
  | cons b rest ih =>
    intro a
    rw [List.foldl_cons]
    have h1 : Last.selector a b = b := rfl
    rw [h1, ih b]
    cases rest with
    | nil => simp
    | cons c cs =>
      obtain ⟨x, hx⟩ := Option.isSome_iff_exists.mp
        (List.getLast?_isSome.mpr (List.cons_ne_nil c cs))
      simp [hx]

/-- A `Last` run keeps the last non-null value. -/
theorem last_run_eq {α : Type} (vals : List (Option α)) :
    Last.run vals = (vals.filterMap id).getLast? := by
  induction vals with
  | nil => rfl
  | cons v rest ih =>
    cases v with
    | none => simpa using ih
    | some a =>
      have h1 : Last.run (some a :: rest)
          = some ((rest.filterMap id).foldl Last.selector a) := by
        rw [Last.run, ValueAggr.run, List.foldl_cons]
        exact valueAggr_foldl_some Last.selector rest a
      rw [h1, foldl_last]
      show _ = (a :: List.filterMap id rest).getLast?
      cases h2 : (rest.filterMap id) with
      | nil => simp
      | cons c cs =>
        obtain ⟨x, hx⟩ := Option.isSome_iff_exists.mp
          (List.getLast?_isSome.mpr (List.cons_ne_nil c cs))
        rw [List.getLast?_cons_cons, hx]
        simp

/-- C6: over number-or-null update sequences, `Min` finalizes to the
smallest non-null value, `Max` to the largest, `First` to the first in
update order, `Last` to the last, each null when no non-null value was
seen; over `[5, null, 2, 8]`, `Min` gives 2 and `Max` gives 8. -/
theorem minMaxFirstLast_spec (vals : List (Option ℚ)) :
    (ValueAggr.finalizeS (Min.run vals)).1 = (vals.filterMap id).min? ∧
    (ValueAggr.finalizeS (Max.run vals)).1 = (vals.filterMap id).max? ∧
    (ValueAggr.finalizeS (First.run vals)).1 = (vals.filterMap id).head? ∧
    (ValueAggr.finalizeS (Last.run vals)).1 = (vals.filterMap id).getLast? ∧
    (ValueAggr.finalizeS (Min.run [some 5, none, some 2, some 8])).1 = some 2 ∧
    (ValueAggr.finalizeS (Max.run [some 5, none, some 2, some 8])).1 = some 8 :=
  ⟨min_run_eq vals, max_run_eq vals, first_run_eq vals, last_run_eq vals,
    by decide, by decide⟩

/-- Folding ArrayAgg's update onto an already-allocated list appends every
value, nulls included. -/
theorem arrayAgg_foldl {α : Type} (vals : List (Option α)) :
    ∀ l : List (Option α), vals.foldl ArrayAgg.update (some l) = some (l ++ vals) := by
  induction vals with
  | nil => intro l; simp
  | cons v rest ih =>
    intro l
    rw [List.foldl_cons]
    have h1 : ArrayAgg.update (some l) v = some (l ++ [v]) := rfl
    rw [h1, ih (l ++ [v])]
    simp

/-- C7: `ArrayAgg`'s finalize after any update sequence is the full ordered
list of updated values with nulls retained in place — `[1, null, 2]`
finalizes to the 3-element sequence `[1, null, 2]` — and is null when
update was never called. -/
theorem arrayAgg_spec {α : Type} (vals : List (Option α)) :
    ((ArrayAgg.finalizeS (ArrayAgg.run vals)).1
        = if vals.isEmpty then none else some vals) ∧
    (ArrayAgg.finalizeS (ArrayAgg.run [some (1 : ℚ), none, some 2])).1
      = some [some 1, none, some 2] := by
  constructor
  · cases vals with
    | nil => rfl
    | cons v rest =>
      have h1 : ArrayAgg.run (v :: rest) = some ([v] ++ rest) := by
        rw [ArrayAgg.run, List.foldl_cons]
        exact arrayAgg_foldl rest [v]
      simp [ArrayAgg.finalizeS, h1]
  · decide

/-- A `StringAgg` run with separator `s` joins the non-null values with
`s` in update order, and is null when no non-null value was seen. -/
theorem stringAgg_run_eq (s : String) (vals : List (Option String)) :
    ValueAggr.run (StringAgg.selector s) vals = specJoin s (vals.filterMap id) := by
  induction vals with
  | nil => rfl
  | cons v rest ih =>
    cases v with
    | none => simpa using ih
    | some a =>
      have h1 : ValueAggr.run (StringAgg.selector s) (some a :: rest)
          = some ((rest.filterMap id).foldl (StringAgg.selector s) a) := by
        rw [ValueAggr.run, List.foldl_cons]
        exact valueAggr_foldl_some (StringAgg.selector s) rest a
      rw [h1]
      rfl

/-- C3 counterexample: with a second constructor argument whose constant is
the empty string — a string — the code joins with `","`, not with `""`:
over `["a", "b"]` it finalizes to `"a,b"` where joining by the given
separator would give `"ab"`. -/
theorem stringAgg_empty_sep_counterexample :
    (ValueAggr.finalizeS (StringAgg.run (some "") [some "a", some "b"])).1
        = some "a,b" ∧
      ¬ (ValueAggr.finalizeS (StringAgg.run (some "") [some "a", some "b"])).1
        = some "ab" := by
  constructor
  · decide
  · decide

/-- C3 (amended): for a second constructor argument whose constant is a
non-empty string `sep`, finalize joins the non-null values with `sep` in
update order (null when none was seen); with no second argument the
separator is `","`.  (The empty-string constant is JS-falsy, so the code
falls back to the default separator for it.) -/
theorem stringAgg_spec (sep : String) (hsep : sep ≠ "") (vals : List (Option String)) :
    (ValueAggr.finalizeS (StringAgg.run (some sep) vals)).1
        = specJoin sep (vals.filterMap id) ∧
      (ValueAggr.finalizeS (StringAgg.run none vals)).1
        = specJoin "," (vals.filterMap id) := by
  have hsep' : StringAgg.sepOf (some sep) = sep := by
    rw [StringAgg.sepOf]
    exact if_neg hsep
  constructor
  · rw [StringAgg.run, hsep']
    exact stringAgg_run_eq sep vals
  · rw [StringAgg.run]
    exact stringAgg_run_eq "," vals

/-- Witness for C3 (amended) at the separator `"-"` over
`["a", null, "b", "c"]` (the claim's example values with a null mixed in). -/
theorem stringAgg_spec_witness :
    (ValueAggr.finalizeS (StringAgg.run (some "-") [some "a", none, some "b", some "c"])).1
        = specJoin "-" ([some "a", none, some "b", some "c"].filterMap id) ∧
      (ValueAggr.finalizeS (StringAgg.run none [some "a", none, some "b", some "c"])).1
        = specJoin "," ([some "a", none, some "b", some "c"].filterMap id) :=
  stringAgg_spec "-" (by decide) [some "a", none, some "b", some "c"]

/-- A lifted boolean list contains a JS null exactly where the original
list contains `none`. -/
theorem any_isNull_map (args : List (Option Bool)) :
    (args.map liftBool).any (fun v => v.isNull) = args.any (fun a => a.isNone) := by
  induction args with
  | nil => rfl
  | cons a rest ih =>
    cases a with
    | none => rfl
    | some b =>
      rw [List.map_cons, List.any_cons, List.any_cons]
      show (false || _) = (false || _)
      rw [Bool.false_or, Bool.false_or]
      exact ih

/-- Without nulls, the lifted list is the lifted list of the booleans. -/
theorem map_liftBool_of_no_none (args : List (Option Bool))
    (h : args.any (fun a => a.isNone) = false) :
    args.map liftBool = (args.filterMap id).map Value.bool := by
  induction args with
  | nil => rfl
  | cons a rest ih =>
    cases a with
    | none => simp at h
    | some b =>
      simp only [List.any_cons, Bool.or_eq_false_iff] at h
      simp [liftBool, ih h.2]

/-- JS `&&` folded over lifted booleans is boolean AND folded over the
booleans. -/
theorem foldl_and_bool (bs : List Bool) :
    ∀ r : Bool, (bs.map Value.bool).foldl
        (fun r a => if jsTruthy r then a else r) (.bool r)
      = .bool (bs.foldl (fun x y => x && y) r) := by
  induction bs with
  | nil => intro r; rfl
  | cons b rest ih => intro r; cases r <;> simpa [jsTruthy] using ih _

/-- JS `||` folded over lifted booleans is boolean OR folded over the
booleans. -/
theorem foldl_or_bool (bs : List Bool) :
    ∀ r : Bool, (bs.map Value.bool).foldl
        (fun r a => if jsTruthy r then r else a) (.bool r)
      = .bool (bs.foldl (fun x y => x || y) r) := by
  induction bs with
  | nil => intro r; rfl
  | cons b rest ih => intro r; cases r <;> simpa [jsTruthy] using ih _

/-- C8: over boolean-or-null argument lists, `Expr.and` is null when any
argument is null and otherwise the left fold of boolean AND starting from
true; `Expr.or` likewise with OR starting from false; `Expr.not` maps null
to null and a boolean to its negation. -/
theorem boolOps_spec (args : List (Option Bool)) (b : Bool) :
    (Expr.and (args.map liftBool)
        = if none ∈ args then Value.null
          else .bool ((args.filterMap id).foldl (fun x y => x && y) true)) ∧
      (Expr.or (args.map liftBool)
        = if none ∈ args then Value.null
          else .bool ((args.filterMap id).foldl (fun x y => x || y) false)) ∧
      Expr.not Value.null = Value.null ∧
      Expr.not (.bool b) = .bool (!b) := by
  refine ⟨?_, ?_, rfl, by cases b <;> rfl⟩
  · by_cases h : none ∈ args
    · have ha : args.any (fun a => a.isNone) = true :=
        List.any_eq_true.mpr ⟨none, h, rfl⟩
      simp [Expr.and, any_isNull_map, ha, h]
    · have ha : args.any (fun a => a.isNone) = false := by
        rw [List.any_eq_false]
        intro x hx
        cases x with
        | none => exact absurd hx h
        | some c => simp
      rw [Expr.and, any_isNull_map, ha]
      simp only [Bool.false_eq_true, if_false, if_neg h]
      rw [map_liftBool_of_no_none args ha]
      exact foldl_and_bool _ true
  · by_cases h : none ∈ args
    · have ha : args.any (fun a => a.isNone) = true :=
        List.any_eq_true.mpr ⟨none, h, rfl⟩
      simp [Expr.or, any_isNull_map, ha, h]
    · have ha : args.any (fun a => a.isNone) = false := by
        rw [List.any_eq_false]
        intro x hx
        cases x with
        | none => exact absurd hx h
        | some c => simp
      rw [Expr.or, any_isNull_map, ha]
      simp only [Bool.false_eq_true, if_false, if_neg h]
      rw [map_liftBool_of_no_none args ha]
      exact foldl_or_bool _ false

/-- C9: for every aggregate of the library, finalize leaves any state
reached from a fresh accumulator by a finite update sequence unchanged
(the embedded `finalizeS` returns the input state as post-state), so a
second finalize on the same state returns the same result. -/
theorem finalize_pure_idempotent :
    (∀ n : Nat,
      (CountStar.finalizeS (CountStar.run n)).2 = CountStar.run n ∧
      (CountStar.finalizeS (CountStar.finalizeS (CountStar.run n)).2).1
        = (CountStar.finalizeS (CountStar.run n)).1) ∧
    (∀ vals : List (Option ℚ),
      (Count.finalizeS (Count.run vals)).2 = Count.run vals ∧
      (Count.finalizeS (Count.finalizeS (Count.run vals)).2).1
        = (Count.finalizeS (Count.run vals)).1) ∧
    (∀ vals : List (Option ℚ),
      (Sum.finalizeS (Sum.run vals)).2 = Sum.run vals ∧
      (Sum.finalizeS (Sum.finalizeS (Sum.run vals)).2).1
        = (Sum.finalizeS (Sum.run vals)).1) ∧
    (∀ vals : List (Option ℚ),
      (Avg.finalizeS (Avg.run vals)).2 = Avg.run vals ∧
      (Avg.finalizeS (Avg.finalizeS (Avg.run vals)).2).1
        = (Avg.finalizeS (Avg.run vals)).1) ∧
    (∀ vals : List (Option ℚ),
      (ValueAggr.finalizeS (Min.run vals)).2 = Min.run vals ∧
      (ValueAggr.finalizeS (ValueAggr.finalizeS (Min.run vals)).2).1
        = (ValueAggr.finalizeS (Min.run vals)).1) ∧
    (∀ vals : List (Option ℚ),
      (ValueAggr.finalizeS (Max.run vals)).2 = Max.run vals ∧
      (ValueAggr.finalizeS (ValueAggr.finalizeS (Max.run vals)).2).1
        = (ValueAggr.finalizeS (Max.run vals)).1) ∧
    (∀ vals : List (Option ℚ),
      (ValueAggr.finalizeS (First.run vals)).2 = First.run vals ∧
      (ValueAggr.finalizeS (ValueAggr.finalizeS (First.run vals)).2).1
        = (ValueAggr.finalizeS (First.run vals)).1) ∧
    (∀ vals : List (Option ℚ),
      (ValueAggr.finalizeS (Last.run vals)).2 = Last.run vals ∧
      (ValueAggr.finalizeS (ValueAggr.finalizeS (Last.run vals)).2).1
        = (ValueAggr.finalizeS (Last.run vals)).1) ∧
    (∀ (arg2 : Option String) (svals : List (Option String)),
      (ValueAggr.finalizeS (StringAgg.run arg2 svals)).2 = StringAgg.run arg2 svals ∧
      (ValueAggr.finalizeS (ValueAggr.finalizeS (StringAgg.run arg2 svals)).2).1
        = (ValueAggr.finalizeS (StringAgg.run arg2 svals)).1) ∧
    (∀ vals : List (Option ℚ),
      (ArrayAgg.finalizeS (ArrayAgg.run vals)).2 = ArrayAgg.run vals ∧
      (ArrayAgg.finalizeS (ArrayAgg.finalizeS (ArrayAgg.run vals)).2).1
        = (ArrayAgg.finalizeS (ArrayAgg.run vals)).1) :=
  ⟨fun _ => ⟨rfl, rfl⟩, fun _ => ⟨rfl, rfl⟩, fun _ => ⟨rfl, rfl⟩,
    fun _ => ⟨rfl, rfl⟩, fun _ => ⟨rfl, rfl⟩, fun _ => ⟨rfl, rfl⟩,
    fun _ => ⟨rfl, rfl⟩, fun _ => ⟨rfl, rfl⟩, fun _ _ => ⟨rfl, rfl⟩,
    fun _ => ⟨rfl, rfl⟩⟩

end Olap
